import Mathlib

/-!
Verification development for the quantized cached distributed GCN layer
(`src/models/q_cached_gcn.py`).

The embedding has three parts:

* value semantics of the broadcast-and-accumulate engines: the per-round
  accumulation loop `z_loc = 0; for src: spmm(adj[src], buf[src], z_loc)`
  is modelled over rational matrices (`cached_broadcast`), with the payload
  delivered for each source rank given as a function of the rank;
* the quantization codec `quantization` / `dequantization`, modelled over ℚ
  with the stochastic noise (`torch.rand_like`, uniform in `[0,1)`) passed
  explicitly and `torch.round`'s half-to-even rule made explicit;
* the process-wide cache bookkeeping (`g_cache_enabled`, `g_bcast_counter`,
  `g_epoch_counter`, `g_cache`) and the admission policy `use_cache`, as a
  state machine whose rounds mirror the loop of `cached_broadcast` /
  `cached_broadcast_fwd`.  Python dict lookup that can raise `KeyError`,
  and the `assert(src in g_cache[tag])`, are modelled with `Option`
  (`none` = the call raises instead of returning).
-/

namespace QCachedGCN

/-! ## Value semantics of the broadcast-and-accumulate engine -/

/-- One accumulation round of the unquantized engine `cached_broadcast`
(`src/models/q_cached_gcn.py` lines 64-88), at the level of the values
delivered: `z_loc` starts as zeros and each iteration of the source loop
performs `spmm(local_adj_parts[src], feature_bcast, z_loc)`, whose contract
is `z_loc += local_adj_parts[src] * feature_bcast`.  `buf s` is the payload
in `feature_bcast` when source `s` is processed (the source's feature
shard, whether it arrived by `dist.broadcast` or from `g_cache`). -/
def cached_broadcast {w n f : ℕ} (local_adj_parts : Fin w → Matrix (Fin n) (Fin n) ℚ)
    (buf : Fin w → Matrix (Fin n) (Fin f) ℚ) : Matrix (Fin n) (Fin f) ℚ :=
  (List.finRange w).foldl (fun z_loc src => z_loc + local_adj_parts src * buf src) 0

/-- The reassembled full adjacency matrix, restricted to the block row of
one participant: column blocks indexed by source rank. -/
def fullAdj {w n : ℕ} (local_adj_parts : Fin w → Matrix (Fin n) (Fin n) ℚ) :
    Matrix (Fin n) (Fin w × Fin n) ℚ :=
  Matrix.of fun i p => local_adj_parts p.1 i p.2

/-- The reassembled full feature matrix: all participants' shards stacked
vertically, rows indexed by (owner rank, local row). -/
def fullFeat {w n f : ℕ} (shards : Fin w → Matrix (Fin n) (Fin f) ℚ) :
    Matrix (Fin w × Fin n) (Fin f) ℚ :=
  Matrix.of fun p j => shards p.1 p.2 j

lemma foldl_add_eq {α M : Type*} [AddCommMonoid M] (g : α → M) :
    ∀ (l : List α) (z : M), l.foldl (fun acc s => acc + g s) z = z + (l.map g).sum
  | [], z => by simp
  | a :: l, z => by
    simp only [List.foldl_cons, List.map_cons, List.sum_cons]
    rw [foldl_add_eq g l (z + g a), add_assoc]

lemma cached_broadcast_eq_sum {w n f : ℕ} (adj : Fin w → Matrix (Fin n) (Fin n) ℚ)
    (buf : Fin w → Matrix (Fin n) (Fin f) ℚ) :
    cached_broadcast adj buf = ∑ s, adj s * buf s := by
  rw [cached_broadcast, foldl_add_eq, zero_add, Fin.sum_univ_def]

lemma sum_blocks_eq_full {w n f : ℕ} (adj : Fin w → Matrix (Fin n) (Fin n) ℚ)
    (buf : Fin w → Matrix (Fin n) (Fin f) ℚ) :
    ∑ s, adj s * buf s = fullAdj adj * fullFeat buf := by
  ext i j
  rw [Matrix.sum_apply, Matrix.mul_apply, Fintype.sum_prod_type]
  exact Finset.sum_congr rfl fun s _ => by rw [Matrix.mul_apply]; rfl

/-- C1: the unquantized engine returns the sum over all source ranks of
`adjacency_shards[s] * shard_s`, which equals the product of the
reassembled full adjacency (block row) with the reassembled full feature
matrix. -/
theorem cached_broadcast_correct {w n f : ℕ} (adj : Fin w → Matrix (Fin n) (Fin n) ℚ)
    (shards : Fin w → Matrix (Fin n) (Fin f) ℚ) :
    cached_broadcast adj shards = ∑ s, adj s * shards s ∧
    cached_broadcast adj shards = fullAdj adj * fullFeat shards := by
  refine ⟨cached_broadcast_eq_sum adj shards, ?_⟩
  rw [cached_broadcast_eq_sum, sum_blocks_eq_full]

/-! ## The distributed GCN layer's backward phase -/

/-- The collective sum-reduction `DistEnv.env.all_reduce_sum`: every
participant's buffer is replaced by the element-wise sum over all
participants' buffers. -/
def all_reduce_sum {w : ℕ} {M : Type*} [AddCommMonoid M] (x : Fin w → M) : M :=
  ∑ q, x q

/-- `DistGCNLayer.backward` (`src/models/q_cached_gcn.py` lines 139-148),
from the point of view of rank `r`, with the collective all-reduce folded
in as the sum over ranks of the local `grad_weight` contributions:
`ag = cached_broadcast(adj_parts, grad_output, 'Backward'+tag)` (the
UNQUANTIZED engine), `grad_features = ag * weight.t()`,
`grad_weight = features.t() * ag` followed by `all_reduce_sum`, and
`None` gradients for the `adj_parts` and `tag` arguments. -/
def backward {w n d e : ℕ} (adj_parts : Fin w → Fin w → Matrix (Fin n) (Fin n) ℚ)
    (features : Fin w → Matrix (Fin n) (Fin d) ℚ) (weight : Matrix (Fin d) (Fin e) ℚ)
    (grad_output : Fin w → Matrix (Fin n) (Fin e) ℚ) (r : Fin w) :
    Matrix (Fin n) (Fin d) ℚ × Matrix (Fin d) (Fin e) ℚ × Option Unit × Option Unit :=
  let ag : Fin w → Matrix (Fin n) (Fin e) ℚ :=
    fun q => cached_broadcast (adj_parts q) grad_output
  let grad_features := ag r * weight.transpose
  let grad_weight := all_reduce_sum fun q => (features q).transpose * ag q
  (grad_features, grad_weight, none, none)

/-- C2: the backward phase computes `aggregated_grad` with the unquantized
engine (so it equals the exact full-matrix product on `grad_output`), then
returns `grad_features = aggregated_grad * weightᵀ`,
`grad_weight = Σ_ranks featuresᵀ * aggregated_grad` (the distributed
sum-reduction), and no gradient for the adjacency shards and the tag. -/
theorem backward_correct {w n d e : ℕ} (adj_parts : Fin w → Fin w → Matrix (Fin n) (Fin n) ℚ)
    (features : Fin w → Matrix (Fin n) (Fin d) ℚ) (weight : Matrix (Fin d) (Fin e) ℚ)
    (grad_output : Fin w → Matrix (Fin n) (Fin e) ℚ) (r : Fin w) :
    (backward adj_parts features weight grad_output r).1 =
      (fullAdj (adj_parts r) * fullFeat grad_output) * weight.transpose ∧
    (backward adj_parts features weight grad_output r).2.1 =
      ∑ q, (features q).transpose * (fullAdj (adj_parts q) * fullFeat grad_output) ∧
    (backward adj_parts features weight grad_output r).2.2.1 = none ∧
    (backward adj_parts features weight grad_output r).2.2.2 = none := by
  refine ⟨?_, ?_, rfl, rfl⟩
  · show cached_broadcast (adj_parts r) grad_output * weight.transpose = _
    rw [cached_broadcast_eq_sum, sum_blocks_eq_full]
  · show all_reduce_sum (fun q => (features q).transpose *
      cached_broadcast (adj_parts q) grad_output) = _
    rw [all_reduce_sum]
    exact Finset.sum_congr rfl fun q _ => by
      rw [cached_broadcast_eq_sum, sum_blocks_eq_full]

/-! ## Quantization codec -/

/-- Row minimum, as computed by `torch.min(input, dim=1)[0]` (requires at
least one column, as does torch). -/
def rowMin {m k : ℕ} [NeZero k] (X : Matrix (Fin m) (Fin k) ℚ) (i : Fin m) : ℚ :=
  Finset.univ.inf' Finset.univ_nonempty fun j => X i j

/-- Row maximum, as computed by `torch.max(input, dim=1)[0]`. -/
def rowMax {m k : ℕ} [NeZero k] (X : Matrix (Fin m) (Fin k) ℚ) (i : Fin m) : ℚ :=
  Finset.univ.sup' Finset.univ_nonempty fun j => X i j

/-- `compute_minmax_params` (`src/models/q_cached_gcn.py` lines 23-25):
per-row minimum and maximum of the input. -/
def compute_minmax_params {m k : ℕ} [NeZero k] (input : Matrix (Fin m) (Fin k) ℚ) :
    (Fin m → ℚ) × (Fin m → ℚ) :=
  (rowMin input, rowMax input)

/-- `torch.round`'s rounding rule: round to the nearest integer, ties to
the even integer. -/
def roundEven (q : ℚ) : ℤ :=
  let f := ⌊q⌋
  let r := q - (f : ℚ)
  if r < 1 / 2 then f
  else if 1 / 2 < r then f + 1
  else if f % 2 = 0 then f else f + 1

/-- `torch.clamp(x, lo, hi)` on integers. -/
def clamp (lo hi x : ℤ) : ℤ := min hi (max lo x)

/-- `quantization` (`src/models/q_cached_gcn.py` lines 28-38).  The
stochastic path adds `torch.rand_like(q_features) - 0.5` before rounding;
the random draw (uniform in `[0,1)` per element) is passed explicitly as
`noise`.  The per-row scale is `(2^nbits - 1) / (rmax - rmin)`, with no
guard against `rmax = rmin` (ℚ's total division stands in for the
float `inf`/`nan` the reference produces there).  The final
`if nbits != 8: raise RuntimeError` is modelled by returning `none`;
the `uint8` cast of the clamped codes keeps integer values. -/
def quantization {m k : ℕ} [NeZero k] (features noise : Matrix (Fin m) (Fin k) ℚ)
    (nbits : ℕ) (is_stochastic : Bool) :
    Option (Matrix (Fin m) (Fin k) ℤ × (Fin m → ℚ) × (Fin m → ℚ)) :=
  let p := compute_minmax_params features
  let rmin := p.1
  let rmax := p.2
  let rscale := fun i => ((2 ^ nbits - 1 : ℚ)) / (rmax i - rmin i)
  let q0 := fun i j => (features i j - rmin i) * rscale i
  let q1 := fun i j =>
    if is_stochastic then
      clamp 0 (2 ^ nbits - 1) (roundEven (q0 i j + noise i j - 1 / 2))
    else
      clamp 0 (2 ^ nbits - 1) (roundEven (q0 i j))
  if nbits = 8 then some (Matrix.of q1, rscale, rmin) else none

/-- `dequantization` (`src/models/q_cached_gcn.py` lines 41-42):
`q_features / rscale.unsqueeze(1) + rmin.unsqueeze(1)`. -/
def dequantization {m k : ℕ} (q_features : Matrix (Fin m) (Fin k) ℤ)
    (rscale rmin : Fin m → ℚ) : Matrix (Fin m) (Fin k) ℚ :=
  Matrix.of fun i j => (q_features i j : ℚ) / rscale i + rmin i

lemma rowMin_le {m k : ℕ} [NeZero k] (X : Matrix (Fin m) (Fin k) ℚ) (i : Fin m) (j : Fin k) :
    rowMin X i ≤ X i j :=
  Finset.inf'_le _ (Finset.mem_univ j)

lemma le_rowMax {m k : ℕ} [NeZero k] (X : Matrix (Fin m) (Fin k) ℚ) (i : Fin m) (j : Fin k) :
    X i j ≤ rowMax X i :=
  Finset.le_sup' _ (Finset.mem_univ j)

lemma roundEven_abs_le (q : ℚ) : |(roundEven q : ℚ) - q| ≤ 1 / 2 := by
  have hf : (⌊q⌋ : ℚ) ≤ q := Int.floor_le q
  have hf' : q < ⌊q⌋ + 1 := Int.lt_floor_add_one q
  rw [roundEven]
  split
  · rw [abs_le]; constructor <;> linarith
  · split
    · rw [abs_le]; constructor <;> push_cast <;> linarith
    · have hr : q - (⌊q⌋ : ℚ) = 1 / 2 := le_antisymm (not_lt.1 (by assumption)) (not_lt.1 (by assumption))
      split <;> · rw [abs_le]; constructor <;> push_cast <;> linarith

lemma roundEven_le_of_lt {q : ℚ} {B : ℤ} (h : q < B + 1 / 2) : roundEven q ≤ B := by
  have h1 : (roundEven q : ℚ) - q ≤ 1 / 2 := (abs_le.1 (roundEven_abs_le q)).2
  have h2 : (roundEven q : ℚ) < B + 1 := by linarith
  exact_mod_cast Int.lt_add_one_iff.1 (by exact_mod_cast h2)

lemma roundEven_nonneg {q : ℚ} (h : -(1 / 2) ≤ q) : 0 ≤ roundEven q := by
  rcases eq_or_lt_of_le h with heq | hlt
  · have hq : q = -(1 / 2) := heq.symm
    have hfl : ⌊q⌋ = -1 := by rw [hq]; norm_num [Int.floor_eq_iff]
    rw [roundEven, hfl, hq]
    norm_num
  · have h1 : q - 1 / 2 ≤ (roundEven q : ℚ) := by
      have := (abs_le.1 (roundEven_abs_le q)).1
      linarith
    have h2 : (-1 : ℚ) < (roundEven q : ℚ) := by linarith
    have : (-1 : ℤ) < roundEven q := by exact_mod_cast h2
    omega

lemma clamp_bounds {lo hi x : ℤ} (h : lo ≤ hi) : lo ≤ clamp lo hi x ∧ clamp lo hi x ≤ hi :=
  ⟨le_min h (le_max_left _ _), min_le_left _ _⟩

lemma clamp_eq_self {lo hi x : ℤ} (h1 : lo ≤ x) (h2 : x ≤ hi) : clamp lo hi x = x := by
  rw [clamp, max_eq_right h1, min_eq_right h2]

/-- C3: with bit-width 8 and rows of strictly positive dynamic range,
every quantized code lies in `[0, 255]`, and each element of
`dequantize(quantize(X))` is within `(row_max - row_min) / 255` of the
original, for both stochastic and non-stochastic rounding. -/
theorem quantization_roundtrip {m k : ℕ} [NeZero k] (X noise : Matrix (Fin m) (Fin k) ℚ)
    (sb : Bool)
    (hrange : ∀ i, rowMin X i < rowMax X i)
    (hnoise : ∀ i j, 0 ≤ noise i j ∧ noise i j < 1)
    (codes : Matrix (Fin m) (Fin k) ℤ) (scale rmn : Fin m → ℚ)
    (heq : quantization X noise 8 sb = some (codes, scale, rmn)) :
    (∀ i j, 0 ≤ codes i j ∧ codes i j ≤ 255) ∧
    (∀ i j, |dequantization codes scale rmn i j - X i j| ≤ (rowMax X i - rowMin X i) / 255) := by
  rw [quantization, if_pos rfl, Option.some_inj, Prod.mk.injEq, Prod.mk.injEq] at heq
  obtain ⟨hc, hs, hr⟩ := heq
  have hscale : ∀ i, scale i = 255 / (rowMax X i - rowMin X i) := by
    intro i; rw [← hs]; norm_num [compute_minmax_params]
  have hrmn : ∀ i, rmn i = rowMin X i := by
    intro i; rw [← hr]; rfl
  have hcode : ∀ i j, codes i j =
      clamp 0 255 (roundEven ((X i j - rowMin X i) * scale i +
        (if sb then noise i j - 1 / 2 else 0))) := by
    intro i j
    rw [← hc]
    cases sb <;> (simp [compute_minmax_params, ← hs, Matrix.of_apply]; try ring_nf)
  have hspos : ∀ i, 0 < scale i := fun i => by
    rw [hscale i]
    exact div_pos (by norm_num) (sub_pos.2 (hrange i))
  refine ⟨fun i j => ?_, fun i j => ?_⟩
  · rw [hcode i j]; exact clamp_bounds (by norm_num)
  · set a := rowMin X i with ha
    set b := rowMax X i with hb
    set s := scale i with hsdef
    set v := (X i j - a) * s with hv
    set δ : ℚ := if sb then noise i j - 1 / 2 else 0 with hδ
    have hδlb : -(1 / 2) ≤ δ := by
      rw [hδ]; cases sb <;> (simp; try linarith [(hnoise i j).1])
    have hδub : δ < 1 / 2 := by
      rw [hδ]; cases sb <;> (simp; try linarith [(hnoise i j).2])
    have hδabs : |δ| ≤ 1 / 2 := abs_le.2 ⟨by linarith, by linarith⟩
    have hv0 : 0 ≤ v := mul_nonneg (sub_nonneg.2 (rowMin_le X i j)) (hspos i).le
    have hv255 : v ≤ 255 := by
      have hba : (0 : ℚ) < b - a := sub_pos.2 (hrange i)
      have h1 : X i j - a ≤ b - a := by
        have := le_rowMax X i j; linarith
      calc v ≤ (b - a) * s := mul_le_mul_of_nonneg_right h1 (hspos i).le
        _ = 255 := by rw [hsdef, hscale i, ← hb, ← ha]; field_simp
    have hy0 : -(1 / 2) ≤ v + δ := by linarith
    have hy255 : v + δ < 255 + 1 / 2 := by linarith
    have hre0 : 0 ≤ roundEven (v + δ) := roundEven_nonneg hy0
    have hre255 : roundEven (v + δ) ≤ 255 := roundEven_le_of_lt (by exact_mod_cast hy255)
    have hcv : codes i j = roundEven (v + δ) := by
      rw [hcode i j, ← ha, ← hsdef, ← hv, ← hδ, clamp_eq_self hre0 hre255]
    have herr : |(codes i j : ℚ) - v| ≤ 1 := by
      calc |(codes i j : ℚ) - v|
          = |((roundEven (v + δ) : ℚ) - (v + δ)) + δ| := by rw [hcv]; ring_nf
        _ ≤ |(roundEven (v + δ) : ℚ) - (v + δ)| + |δ| := abs_add _ _
        _ ≤ 1 / 2 + 1 / 2 := add_le_add (roundEven_abs_le _) hδabs
        _ = 1 := by norm_num
    have hsne : s ≠ 0 := (hspos i).ne'
    have hXv : X i j = v / s + a := by
      rw [hv]; field_simp
    have hdq : dequantization codes scale rmn i j - X i j = ((codes i j : ℚ) - v) / s := by
      rw [dequantization, Matrix.of_apply, hrmn i, ← ha, ← hsdef, hXv]
      ring
    rw [hdq, abs_div, abs_of_pos (hspos i)]
    calc |(codes i j : ℚ) - v| / s ≤ 1 / s := by
          exact div_le_div_of_nonneg_right herr (hspos i).le
      _ = (b - a) / 255 := by
          rw [hsdef, hscale i, ← hb, ← ha, one_div_div]
      _ = (rowMax X i - rowMin X i) / 255 := by rw [← hb, ← ha]

/-- Concrete feature matrix (one row `[0, 1]`) for evaluating the codec. -/
def X0 : Matrix (Fin 1) (Fin 2) ℚ := Matrix.of fun _ j => if j = 0 then 0 else 1

/-- Zero noise draw (a legal value of `torch.rand_like`, which samples `[0,1)`). -/
def noise0 : Matrix (Fin 1) (Fin 2) ℚ := Matrix.of fun _ _ => 0

/-- The codec's output on `X0` with zero noise, non-stochastic rounding. -/
def qres : Matrix (Fin 1) (Fin 2) ℤ × (Fin 1 → ℚ) × (Fin 1 → ℚ) :=
  (quantization X0 noise0 8 false).getD (0, fun _ => 0, fun _ => 0)

theorem quantization_roundtrip_witness :
    (∀ i, rowMin X0 i < rowMax X0 i) ∧
    (∀ i j, 0 ≤ noise0 i j ∧ noise0 i j < 1) ∧
    ((∀ i j, 0 ≤ qres.1 i j ∧ qres.1 i j ≤ 255) ∧
     (∀ i j, |dequantization qres.1 qres.2.1 qres.2.2 i j - X0 i j| ≤
       (rowMax X0 i - rowMin X0 i) / 255)) :=
  ⟨by decide, by decide,
    quantization_roundtrip X0 noise0 false (by decide) (by decide)
      qres.1 qres.2.1 qres.2.2 rfl⟩

/-- A feature matrix with a constant row: `row_max = row_min`. -/
def Xconst : Matrix (Fin 1) (Fin 2) ℚ := Matrix.of fun _ _ => 3

/-- C9: on a constant row the per-row scale computation
`rscale = (2^nbits - 1) / (rmax - rmin)` has a zero divisor, and nothing in
`quantization` guards against it: the call still goes through the division
and returns (ℚ's total division models the `inf`/`nan` the reference lets
propagate). -/
theorem quantization_zero_divisor :
    rowMax Xconst 0 - rowMin Xconst 0 = 0 ∧
    ∃ codes scale rmn, quantization Xconst noise0 8 false = some (codes, scale, rmn) ∧
      scale 0 = (2 ^ 8 - 1 : ℚ) / (rowMax Xconst 0 - rowMin Xconst 0) ∧
      scale 0 = (255 : ℚ) / 0 := by
  have hmax : rowMax Xconst 0 = 3 := by decide
  have hmin : rowMin Xconst 0 = 3 := by decide
  have hdiff : rowMax Xconst 0 - rowMin Xconst 0 = 0 := by rw [hmax, hmin]; norm_num
  refine ⟨hdiff, ?_⟩
  set t := (quantization Xconst noise0 8 false).getD (0, fun _ => 0, fun _ => 0) with ht
  have hscale : t.2.1 0 = (2 ^ 8 - 1 : ℚ) / (rowMax Xconst 0 - rowMin Xconst 0) := rfl
  exact ⟨t.1, t.2.1, t.2.2, rfl, hscale, by rw [hscale, hdiff]; norm_num⟩

/-! ## Cache bookkeeping and admission policy -/

/-- The first literal assignment to `g_cache_enabled`
(`src/models/q_cached_gcn.py` lines 47-48), immediately overwritten by the
second; kept as the dead configuration it is in the source.  A Python dict
lookup is `Option`-valued: `none` models `KeyError`. -/
def g_cache_enabled_v1 : String → Option Bool := fun tag =>
  if tag = "ForwardL1" then some true
  else if tag = "ForwardL2" then some true
  else if tag = "BackwardL1" then some false
  else if tag = "BackwardL2" then some false
  else none

/-- The second literal assignment to `g_cache_enabled`
(`src/models/q_cached_gcn.py` lines 49-50): the binding the module
actually ships, mapping all four tags to `False`. -/
def g_cache_enabled : String → Option Bool := fun tag =>
  if tag = "ForwardL1" then some false
  else if tag = "ForwardL2" then some false
  else if tag = "BackwardL1" then some false
  else if tag = "BackwardL2" then some false
  else none

/-- The process-wide mutable bookkeeping: `g_bcast_counter` (a defaultdict,
so total with default 0), `g_epoch_counter` (likewise), and the key set of
`g_cache` (we track which `(tag, src)` entries exist; the payloads
themselves are covered by the value-semantics part above). -/
structure CState where
  bcast : String → ℕ → ℕ
  epoch : String → ℕ
  hasKey : String → ℕ → Bool

/-- The state at process start: empty cache, all counters zero. -/
def initCState : CState :=
  { bcast := fun _ _ => 0, epoch := fun _ => 0, hasKey := fun _ _ => false }

/-- `F_L1 = tag == 'ForwardL1' and g_bcast_counter[tag][src] > 0`. -/
def condL1 (st : CState) (tag : String) (src : ℕ) : Bool :=
  (tag == "ForwardL1") && decide (0 < st.bcast tag src)

/-- `F_L2 = tag == 'ForwardL2' and (g_bcast_counter[tag][src] > 50 and
g_epoch_counter[tag] % 2 == 0)`. -/
def condL2 (st : CState) (tag : String) (src : ℕ) : Bool :=
  (tag == "ForwardL2") && (decide (50 < st.bcast tag src) && (st.epoch tag % 2 == 0))

/-- The boolean `use = g_cache_enabled[tag] and (F_L1 or F_L2)` with the
enabled table read through `getD false` (only meaningful when the tag is a
key of the table). -/
def cacheDecision (en : String → Option Bool) (st : CState) (tag : String) (src : ℕ) : Bool :=
  ((en tag).getD false) && (condL1 st tag src || condL2 st tag src)

/-- `use_cache` (`src/models/q_cached_gcn.py` lines 55-61).  `none` models
an exception: either `KeyError` from `g_cache_enabled[tag]` (the lookup the
`and` evaluates first) or the failure of `assert(src in g_cache[tag])`. -/
def use_cache (en : String → Option Bool) (st : CState) (tag : String) (src : ℕ) :
    Option Bool :=
  match en tag with
  | none => none
  | some e =>
    let use := e && (condL1 st tag src || condL2 st tag src)
    if use && !(st.hasKey tag src) then none else some use

/-- The state change of a real (non-cached) broadcast for `(tag, src)`:
`g_bcast_counter[tag][src] += 1`, and
`if g_cache_enabled[tag]: g_cache[tag][src] = payload.clone()`. -/
def realBroadcast (en : String → Option Bool) (tag : String) (st : CState) (src : ℕ) :
    CState :=
  { bcast := fun t s => if t = tag ∧ s = src then st.bcast t s + 1 else st.bcast t s,
    epoch := st.epoch,
    hasKey := fun t s =>
      if (t = tag ∧ s = src) ∧ (en tag).getD false = true then true else st.hasKey t s }

/-- One iteration of the source loop of `cached_broadcast` /
`cached_broadcast_fwd`: consult `use_cache`; on `false`, perform the real
broadcast and update the bookkeeping; on `true`, serve from cache (no state
change).  The returned flag records whether the payload was served from
cache; `none` propagates an exception. -/
def roundStep (en : String → Option Bool) (tag : String) (st : CState) (src : ℕ) :
    Option (CState × Bool) :=
  match use_cache en st tag src with
  | none => none
  | some true => some (st, true)
  | some false => some (realBroadcast en tag st src, false)

/-- The source loop `for src in range(env.world_size)`, collecting the
served-from-cache flag of each iteration. -/
def runSteps (en : String → Option Bool) (tag : String) :
    CState → List ℕ → Option (CState × List Bool)
  | st, [] => some (st, [])
  | st, src :: rest =>
    (roundStep en tag st src).bind fun p =>
      (runSteps en tag p.1 rest).map fun q => (q.1, p.2 :: q.2)

/-- One full engine round (one call of `cached_broadcast` or
`cached_broadcast_fwd` with world size `w`): `g_epoch_counter[tag] += 1`,
then the source loop in ascending rank order. -/
def engineRound (en : String → Option Bool) (tag : String) (w : ℕ) (st : CState) :
    Option (CState × List Bool) :=
  runSteps en tag
    { st with epoch := fun t => if t = tag then st.epoch t + 1 else st.epoch t }
    (List.range w)

/-- States reachable from process start by engine rounds (any tags, in any
order). -/
inductive Reachable (en : String → Option Bool) (w : ℕ) : CState → Prop
  | init : Reachable en w initCState
  | next {tag : String} {st st' : CState} {log : List Bool} :
      Reachable en w st → engineRound en tag w st = some (st', log) →
      Reachable en w st'

lemma use_cache_eq_none (en : String → Option Bool) (st : CState) (tag : String)
    (src : ℕ) (he : en tag = none) : use_cache en st tag src = none := by
  rw [use_cache, he]

lemma use_cache_eq (en : String → Option Bool) (st : CState) (tag : String) (src : ℕ)
    (e : Bool) (he : en tag = some e) :
    use_cache en st tag src =
      if ((e && (condL1 st tag src || condL2 st tag src)) && !(st.hasKey tag src)) = true
      then none else some (e && (condL1 st tag src || condL2 st tag src)) := by
  rw [use_cache, he]

/-- C4: whenever `use_cache` returns a boolean, that boolean is `true`
exactly when `cache_enabled[tag]` holds and either the ForwardL1 condition
(`broadcast_count > 0`) or the ForwardL2 condition (`broadcast_count > 50`
and even epoch counter) holds. -/
theorem use_cache_true_iff (en : String → Option Bool) (st : CState) (tag : String)
    (src : ℕ) (b : Bool) (h : use_cache en st tag src = some b) :
    b = true ↔ en tag = some true ∧
      ((tag = "ForwardL1" ∧ 0 < st.bcast tag src) ∨
       (tag = "ForwardL2" ∧ 50 < st.bcast tag src ∧ st.epoch tag % 2 = 0)) := by
  rcases he : en tag with _ | e
  · rw [use_cache_eq_none en st tag src he] at h; cases h
  · rw [use_cache_eq en st tag src e he] at h
    by_cases hk : ((e && (condL1 st tag src || condL2 st tag src)) && !(st.hasKey tag src)) = true
    · rw [if_pos hk] at h; cases h
    · rw [if_neg hk] at h
      have hb : b = (e && (condL1 st tag src || condL2 st tag src)) :=
        (Option.some_inj.1 h).symm
      subst hb
      simp only [Bool.and_eq_true, Bool.or_eq_true, condL1, condL2, beq_iff_eq,
        decide_eq_true_eq, Option.some_inj]

theorem use_cache_true_iff_witness :
    use_cache g_cache_enabled initCState "ForwardL1" 0 = some false ∧
    (false = true ↔ g_cache_enabled "ForwardL1" = some true ∧
      (("ForwardL1" = "ForwardL1" ∧ 0 < initCState.bcast "ForwardL1" 0) ∨
       ("ForwardL1" = "ForwardL2" ∧ 50 < initCState.bcast "ForwardL1" 0 ∧
        initCState.epoch "ForwardL1" % 2 = 0))) :=
  ⟨by decide, use_cache_true_iff g_cache_enabled initCState "ForwardL1" 0 false (by decide)⟩

lemma roundStep_eq_none {en : String → Option Bool} {tag : String} {st : CState} {src : ℕ}
    (h : use_cache en st tag src = none) : roundStep en tag st src = none := by
  rw [roundStep, h]

lemma roundStep_eq_cached {en : String → Option Bool} {tag : String} {st : CState} {src : ℕ}
    (h : use_cache en st tag src = some true) : roundStep en tag st src = some (st, true) := by
  rw [roundStep, h]

lemma roundStep_eq_real {en : String → Option Bool} {tag : String} {st : CState} {src : ℕ}
    (h : use_cache en st tag src = some false) :
    roundStep en tag st src = some (realBroadcast en tag st src, false) := by
  rw [roundStep, h]

/-- The cache invariant of the spec: a positive broadcast counter for a
tag whose caching is enabled means a cache entry exists. -/
def CacheInv (en : String → Option Bool) (st : CState) : Prop :=
  ∀ tag src, en tag = some true → 0 < st.bcast tag src → st.hasKey tag src = true

lemma cacheInv_init (en : String → Option Bool) : CacheInv en initCState :=
  fun _ _ _ h => absurd h (by simp [initCState])

lemma cacheDecision_true {en : String → Option Bool} {st : CState} {tag : String} {src : ℕ}
    (h : cacheDecision en st tag src = true) :
    en tag = some true ∧ 0 < st.bcast tag src := by
  rw [cacheDecision, Bool.and_eq_true] at h
  obtain ⟨h1, h2⟩ := h
  refine ⟨?_, ?_⟩
  · rcases he : en tag with _ | e
    · rw [he] at h1; cases h1
    · rw [he] at h1
      simp only [Option.getD_some] at h1
      rw [h1]
  · rw [Bool.or_eq_true] at h2
    rcases h2 with h2 | h2
    · rw [condL1, Bool.and_eq_true] at h2
      exact of_decide_eq_true h2.2
    · rw [condL2, Bool.and_eq_true, Bool.and_eq_true] at h2
      have := of_decide_eq_true h2.2.1
      omega

lemma cacheInv_realBroadcast {en : String → Option Bool} {tag : String} {st : CState}
    {src : ℕ} (hinv : CacheInv en st) : CacheInv en (realBroadcast en tag st src) := by
  intro t s hen hpos
  show (if (t = tag ∧ s = src) ∧ (en tag).getD false = true then true else st.hasKey t s) = true
  by_cases hts : t = tag ∧ s = src
  · have hg : (en tag).getD false = true := by rw [← hts.1, hen]; rfl
    rw [if_pos ⟨hts, hg⟩]
  · rw [if_neg (by tauto)]
    apply hinv t s hen
    have hb : (realBroadcast en tag st src).bcast t s = st.bcast t s := by
      show (if t = tag ∧ s = src then _ else _) = _
      rw [if_neg hts]
    rwa [hb] at hpos

lemma cacheInv_roundStep {en : String → Option Bool} {tag : String} {st st' : CState}
    {src : ℕ} {b : Bool} (hinv : CacheInv en st)
    (h : roundStep en tag st src = some (st', b)) : CacheInv en st' := by
  rcases hu : use_cache en st tag src with _ | ub
  · rw [roundStep_eq_none hu] at h; cases h
  · cases ub
    · rw [roundStep_eq_real hu] at h
      have : realBroadcast en tag st src = st' := congrArg (·.1) (Option.some_inj.1 h)
      rw [← this]
      exact cacheInv_realBroadcast hinv
    · rw [roundStep_eq_cached hu] at h
      have : st = st' := congrArg (·.1) (Option.some_inj.1 h)
      rwa [← this]

lemma cacheInv_runSteps {en : String → Option Bool} {tag : String} :
    ∀ (l : List ℕ) (st st' : CState) (log : List Bool), CacheInv en st →
      runSteps en tag st l = some (st', log) → CacheInv en st'
  | [], st, st', log, hinv, h => by
    rw [runSteps] at h
    have : st = st' := congrArg (·.1) (Option.some_inj.1 h)
    rwa [← this]
  | src :: rest, st, st', log, hinv, h => by
    rw [runSteps] at h
    rcases hr : roundStep en tag st src with _ | p
    · rw [hr, Option.none_bind] at h; cases h
    · simp only [hr, Option.some_bind] at h
      rcases hs : runSteps en tag p.1 rest with _ | q
      · rw [hs, Option.map_none'] at h; cases h
      · rw [hs, Option.map_some'] at h
        have hst' : q.1 = st' := congrArg (·.1) (Option.some_inj.1 h)
        rw [← hst']
        exact cacheInv_runSteps rest p.1 q.1 q.2 (cacheInv_roundStep hinv hr) hs

lemma cacheInv_engineRound {en : String → Option Bool} {tag : String} {w : ℕ}
    {st st' : CState} {log : List Bool} (hinv : CacheInv en st)
    (h : engineRound en tag w st = some (st', log)) : CacheInv en st' := by
  rw [engineRound] at h
  have hb : CacheInv en
      { st with epoch := fun t => if t = tag then st.epoch t + 1 else st.epoch t } :=
    fun t s hen hp => hinv t s hen hp
  exact cacheInv_runSteps (List.range w) _ st' log hb h

lemma cacheInv_reachable {en : String → Option Bool} {w : ℕ} {st : CState}
    (h : Reachable en w st) : CacheInv en st := by
  induction h with
  | init => exact cacheInv_init en
  | next _ he ih => exact cacheInv_engineRound ih he

/-- C5: in every state reachable by engine rounds from the initial state,
whenever the policy boolean would be `true` for `(tag, src)`, a cache entry
for that pair exists, and `use_cache` returns `some true` rather than
failing its assertion. -/
theorem use_cache_invariant (en : String → Option Bool) (w : ℕ) (st : CState)
    (h : Reachable en w st) (tag : String) (src : ℕ)
    (hd : cacheDecision en st tag src = true) :
    st.hasKey tag src = true ∧ use_cache en st tag src = some true := by
  obtain ⟨hen, hpos⟩ := cacheDecision_true hd
  have hk := cacheInv_reachable h tag src hen hpos
  refine ⟨hk, ?_⟩
  rw [use_cache_eq en st tag src true hen]
  have hcd : (condL1 st tag src || condL2 st tag src) = true := by
    rw [cacheDecision, hen] at hd
    simpa using hd
  rw [hcd, hk]
  simp

/-- The state after one engine round for tag `ForwardL1` under the first
(dead) configuration with world size 1: one real broadcast from rank 0. -/
def stAfter1 : CState :=
  realBroadcast g_cache_enabled_v1 "ForwardL1"
    { initCState with
      epoch := fun t => if t = "ForwardL1" then initCState.epoch t + 1
               else initCState.epoch t } 0

theorem use_cache_invariant_witness :
    cacheDecision g_cache_enabled_v1 stAfter1 "ForwardL1" 0 = true ∧
    (stAfter1.hasKey "ForwardL1" 0 = true ∧
     use_cache g_cache_enabled_v1 stAfter1 "ForwardL1" 0 = some true) :=
  ⟨by decide,
    use_cache_invariant g_cache_enabled_v1 1 stAfter1
      (Reachable.next Reachable.init
        (rfl : engineRound g_cache_enabled_v1 "ForwardL1" 1 initCState =
          some (stAfter1, [false])))
      "ForwardL1" 0 (by decide)⟩

lemma runSteps_disabled {en : String → Option Bool} {tag : String}
    (he : en tag = some false) :
    ∀ (l : List ℕ) (st : CState),
      ∃ st', runSteps en tag st l = some (st', List.replicate l.length false)
  | [], st => ⟨st, rfl⟩
  | src :: rest, st => by
    have hu : use_cache en st tag src = some false := by
      rw [use_cache_eq en st tag src false he]; simp
    obtain ⟨st', hst'⟩ := runSteps_disabled he rest (realBroadcast en tag st src)
    refine ⟨st', ?_⟩
    rw [runSteps, roundStep_eq_real hu]
    simp only [Option.some_bind, hst', Option.map_some', List.length_cons,
      List.replicate_succ]

/-- C6: under the cache-enable table the module actually ships (the second
literal, all four tags `False`), `use_cache` returns `false` for every one
of the four tags in every state, and every engine round performs a real
collective broadcast for every source (no payload is ever served from
cache). -/
theorem caching_disabled_effective (st : CState) (tag : String) (src w : ℕ)
    (h : tag = "ForwardL1" ∨ tag = "ForwardL2" ∨ tag = "BackwardL1" ∨ tag = "BackwardL2") :
    use_cache g_cache_enabled st tag src = some false ∧
    ∃ st', engineRound g_cache_enabled tag w st = some (st', List.replicate w false) := by
  have he : g_cache_enabled tag = some false := by
    rcases h with h | h | h | h <;> (subst h; rfl)
  constructor
  · rw [use_cache_eq _ _ _ _ false he]; simp
  · obtain ⟨st', hst'⟩ := runSteps_disabled he (List.range w) _
    exact ⟨st', by rw [engineRound, hst', List.length_range]⟩

theorem caching_disabled_effective_witness :
    use_cache g_cache_enabled initCState "BackwardL1" 0 = some false ∧
    ∃ st', engineRound g_cache_enabled "BackwardL1" 2 initCState =
      some (st', List.replicate 2 false) :=
  caching_disabled_effective initCState "BackwardL1" 0 2 (Or.inr (Or.inr (Or.inl rfl)))

/-- C10: for a tag outside the four keys of `g_cache_enabled`, `use_cache`
does not return `false` gracefully: the table lookup raises (modelled as
`none`), in every state.  The counters, being defaultdicts, are total and
default to zero for unknown keys. -/
theorem use_cache_unknown_tag (tag : String)
    (h1 : tag ≠ "ForwardL1") (h2 : tag ≠ "ForwardL2")
    (h3 : tag ≠ "BackwardL1") (h4 : tag ≠ "BackwardL2") (st : CState) (src : ℕ) :
    use_cache g_cache_enabled st tag src = none ∧
    initCState.bcast tag src = 0 ∧ initCState.epoch tag = 0 := by
  refine ⟨?_, rfl, rfl⟩
  apply use_cache_eq_none
  simp [g_cache_enabled, h1, h2, h3, h4]

theorem use_cache_unknown_tag_witness :
    use_cache g_cache_enabled initCState "ForwardL3" 0 = none ∧
    initCState.bcast "ForwardL3" 0 = 0 ∧ initCState.epoch "ForwardL3" = 0 :=
  use_cache_unknown_tag "ForwardL3" (by decide) (by decide) (by decide) (by decide)
    initCState 0

lemma realBroadcast_bcast (en : String → Option Bool) (tag : String) (st : CState)
    (src : ℕ) (t : String) (s : ℕ) :
    (realBroadcast en tag st src).bcast t s =
      if t = tag ∧ s = src then st.bcast t s + 1 else st.bcast t s := rfl

lemma realBroadcast_hasKey (en : String → Option Bool) (tag : String) (st : CState)
    (src : ℕ) (t : String) (s : ℕ) :
    (realBroadcast en tag st src).hasKey t s =
      if (t = tag ∧ s = src) ∧ (en tag).getD false = true then true
      else st.hasKey t s := rfl

lemma condL1_eq_of {st st' : CState} {tag : String} {s : ℕ}
    (hb : st'.bcast tag s = st.bcast tag s) : condL1 st' tag s = condL1 st tag s := by
  rw [condL1, condL1, hb]

lemma condL2_eq_of {st st' : CState} {tag : String} {s : ℕ}
    (hb : st'.bcast tag s = st.bcast tag s) (he : st'.epoch tag = st.epoch tag) :
    condL2 st' tag s = condL2 st tag s := by
  rw [condL2, condL2, hb, he]

/-- A source loop over pairwise-distinct sources whose cache conditions all
fail performs a real broadcast at every iteration: the log is all-`false`,
each listed `(tag, src)` counter is incremented once, the corresponding
cache keys appear exactly when the tag's caching is enabled, and nothing
else changes. -/
lemma runSteps_all_real {en : String → Option Bool} {tag : String} {e : Bool}
    (he : en tag = some e) :
    ∀ (l : List ℕ), l.Nodup → ∀ st : CState,
      (∀ s ∈ l, condL1 st tag s = false) → (∀ s ∈ l, condL2 st tag s = false) →
      ∃ st', runSteps en tag st l = some (st', List.replicate l.length false) ∧
        st'.epoch = st.epoch ∧
        (∀ t s, st'.bcast t s =
          if t = tag ∧ s ∈ l then st.bcast t s + 1 else st.bcast t s) ∧
        (∀ t s, st'.hasKey t s =
          if (t = tag ∧ s ∈ l) ∧ e = true then true else st.hasKey t s) := by
  intro l
  induction l with
  | nil =>
    intro _ st _ _
    exact ⟨st, rfl, rfl, fun t s => by simp, fun t s => by simp⟩
  | cons a rest ih =>
    intro hnd st h1 h2
    obtain ⟨ha, hrest⟩ := List.nodup_cons.1 hnd
    have hu : use_cache en st tag a = some false := by
      rw [use_cache_eq en st tag a e he, h1 a (List.mem_cons_self a rest),
        h2 a (List.mem_cons_self a rest)]
      simp
    have hb1 : ∀ s ∈ rest, (realBroadcast en tag st a).bcast tag s = st.bcast tag s :=
      fun s hs => by
        rw [realBroadcast_bcast, if_neg]
        rintro ⟨-, rfl⟩
        exact ha hs
    have h1' : ∀ s ∈ rest, condL1 (realBroadcast en tag st a) tag s = false :=
      fun s hs => by rw [condL1_eq_of (hb1 s hs)]; exact h1 s (List.mem_cons_of_mem a hs)
    have h2' : ∀ s ∈ rest, condL2 (realBroadcast en tag st a) tag s = false :=
      fun s hs => by
        rw [condL2_eq_of (hb1 s hs) rfl]; exact h2 s (List.mem_cons_of_mem a hs)
    obtain ⟨st', hrun, hep, hbc, hk⟩ := ih hrest (realBroadcast en tag st a) h1' h2'
    refine ⟨st', ?_, by rw [hep]; rfl, fun t s => ?_, fun t s => ?_⟩
    · rw [runSteps, roundStep_eq_real hu]
      simp only [Option.some_bind, hrun, Option.map_some', List.length_cons,
        List.replicate_succ]
    · rw [hbc t s, realBroadcast_bcast]
      by_cases ht : t = tag
      · by_cases hsa : s = a
        · subst hsa
          have hsr : s ∉ rest := ha
          simp [ht, hsr, List.mem_cons]
        · by_cases hsr : s ∈ rest
          · simp [ht, hsa, hsr, List.mem_cons]
          · simp [ht, hsa, hsr, List.mem_cons]
      · simp [ht]
    · rw [hk t s, realBroadcast_hasKey]
      have hg : (en tag).getD false = e := by rw [he]; rfl
      by_cases hetrue : e = true
      · by_cases ht : t = tag
        · by_cases hsa : s = a
          · subst hsa
            simp [ht, hetrue, hg, List.mem_cons]
          · by_cases hsr : s ∈ rest
            · simp [ht, hsa, hsr, hetrue, hg, List.mem_cons]
            · simp [ht, hsa, hsr, hetrue, hg, List.mem_cons]
        · simp [ht, hetrue]
      · by_cases ht : t = tag
        · by_cases hsa : s = a
          · subst hsa
            simp [ht, hetrue, hg, List.mem_cons]
          · simp [ht, hsa, hetrue, hg, List.mem_cons]
        · simp [ht, hetrue]

/-- A source loop in a state where every listed source satisfies a cache
condition and has a cache entry is served entirely from the cache: the log
is all-`true` and the state does not change. -/
lemma runSteps_all_cached {en : String → Option Bool} {tag : String}
    (he : en tag = some true) :
    ∀ (l : List ℕ) (st : CState),
      (∀ s ∈ l, (condL1 st tag s || condL2 st tag s) = true) →
      (∀ s ∈ l, st.hasKey tag s = true) →
      runSteps en tag st l = some (st, List.replicate l.length true)
  | [], st, _, _ => rfl
  | a :: rest, st, hc, hk => by
    have hu : use_cache en st tag a = some true := by
      rw [use_cache_eq en st tag a true he, hc a (List.mem_cons_self a rest)]
      simp [hk a (List.mem_cons_self a rest)]
    rw [runSteps, roundStep_eq_cached hu]
    simp only [Option.some_bind]
    rw [runSteps_all_cached he rest st
      (fun s hs => hc s (List.mem_cons_of_mem a hs))
      (fun s hs => hk s (List.mem_cons_of_mem a hs))]
    simp [List.replicate_succ]

/-- The epoch bump at the start of an engine round. -/
def bump (st : CState) (tag : String) : CState :=
  { st with epoch := fun t => if t = tag then st.epoch t + 1 else st.epoch t }

lemma engineRound_eq (en : String → Option Bool) (tag : String) (w : ℕ) (st : CState) :
    engineRound en tag w st = runSteps en tag (bump st tag) (List.range w) := rfl

/-- C7: with `cache_enabled["ForwardL1"] = true`, the first engine round
for tag `ForwardL1` from the initial state performs a real collective
broadcast for every source (no access is served from cache), and the
second round's access for every source is served from the cache. -/
theorem l1_warmup (en : String → Option Bool) (he : en "ForwardL1" = some true) (w : ℕ) :
    ∃ st1, engineRound en "ForwardL1" w initCState = some (st1, List.replicate w false) ∧
      ∃ st2, engineRound en "ForwardL1" w st1 = some (st2, List.replicate w true) := by
  have h1 : ∀ s ∈ List.range w, condL1 (bump initCState "ForwardL1") "ForwardL1" s = false :=
    fun s _ => rfl
  have h2 : ∀ s ∈ List.range w, condL2 (bump initCState "ForwardL1") "ForwardL1" s = false :=
    fun s _ => rfl
  obtain ⟨st1, hrun, hep, hbc, hk⟩ :=
    runSteps_all_real he (List.range w) (List.nodup_range w) (bump initCState "ForwardL1") h1 h2
  refine ⟨st1, ?_, ?_⟩
  · rw [engineRound_eq, hrun, List.length_range]
  · have hbc1 : ∀ s ∈ List.range w, st1.bcast "ForwardL1" s = 1 := fun s hs => by
      rw [hbc "ForwardL1" s, if_pos ⟨rfl, hs⟩]
      rfl
    have hk1 : ∀ s ∈ List.range w, st1.hasKey "ForwardL1" s = true := fun s hs => by
      rw [hk "ForwardL1" s, if_pos ⟨⟨rfl, hs⟩, rfl⟩]
    have hc : ∀ s ∈ List.range w,
        (condL1 (bump st1 "ForwardL1") "ForwardL1" s ||
         condL2 (bump st1 "ForwardL1") "ForwardL1" s) = true := fun s hs => by
      have : condL1 (bump st1 "ForwardL1") "ForwardL1" s = true := by
        rw [condL1]
        have : (bump st1 "ForwardL1").bcast "ForwardL1" s = 1 := hbc1 s hs
        rw [this]
        rfl
      rw [this, Bool.true_or]
    have hkk : ∀ s ∈ List.range w, (bump st1 "ForwardL1").hasKey "ForwardL1" s = true :=
      fun s hs => hk1 s hs
    refine ⟨bump st1 "ForwardL1", ?_⟩
    rw [engineRound_eq, runSteps_all_cached he (List.range w) (bump st1 "ForwardL1") hc hkk,
      List.length_range]

theorem l1_warmup_witness :
    ∃ st1, engineRound g_cache_enabled_v1 "ForwardL1" 2 initCState =
        some (st1, List.replicate 2 false) ∧
      ∃ st2, engineRound g_cache_enabled_v1 "ForwardL1" 2 st1 =
        some (st2, List.replicate 2 true) :=
  l1_warmup g_cache_enabled_v1 rfl 2

/-- The per-source broadcast counter along a pure run of `ForwardL2`
rounds: round `j + 1` is served from cache (counter unchanged) exactly when
the counter already exceeds 50 and the post-increment epoch `j + 1` is
even; otherwise a real broadcast increments it. -/
def bcount : ℕ → ℕ
  | 0 => 0
  | n + 1 => if 50 < bcount n ∧ (n + 1) % 2 = 0 then bcount n else bcount n + 1

/-- Whether round `k + 1` of a pure `ForwardL2` run is served from cache. -/
def fl2Cached (k : ℕ) : Bool := decide (50 < bcount k ∧ (k + 1) % 2 = 0)

/-- The expected per-round logs of a pure `ForwardL2` run of `n` rounds at
world size `w`. -/
def fl2Logs (w n : ℕ) : List (List Bool) :=
  (List.range n).map fun k => List.replicate w (fl2Cached k)

/-- `n` successive engine rounds with one tag (one per call of the engine),
collecting each round's served-from-cache log. -/
def runRounds (en : String → Option Bool) (tag : String) (w : ℕ) :
    ℕ → CState → Option (CState × List (List Bool))
  | 0, st => some (st, [])
  | n + 1, st =>
    (engineRound en tag w st).bind fun p =>
      (runRounds en tag w n p.1).map fun q => (q.1, p.2 :: q.2)

lemma bcount_le : ∀ n, bcount n ≤ n
  | 0 => le_refl 0
  | n + 1 => by
    rw [bcount]
    split
    · exact (bcount_le n).trans (Nat.le_succ n)
    · exact Nat.succ_le_succ (bcount_le n)

/-- The run invariant for pure `ForwardL2` runs: after `j` rounds the epoch
counter is `j`, every in-world source's broadcast counter is `bcount j`,
and cache entries exist exactly when at least one round has run. -/
def FL2Inv (w j : ℕ) (st : CState) : Prop :=
  st.epoch "ForwardL2" = j ∧
  (∀ s, s < w → st.bcast "ForwardL2" s = bcount j) ∧
  (∀ s, s < w → st.hasKey "ForwardL2" s = decide (0 < j))

lemma bump_epoch_self (st : CState) (tag : String) :
    (bump st tag).epoch tag = st.epoch tag + 1 := by
  show (if tag = tag then st.epoch tag + 1 else st.epoch tag) = st.epoch tag + 1
  rw [if_pos rfl]

lemma fl2_run_aux {en : String → Option Bool} (he : en "ForwardL2" = some true) (w : ℕ) :
    ∀ (n j : ℕ) (st : CState), FL2Inv w j st →
      ∃ st', runRounds en "ForwardL2" w n st =
          some (st', (List.range n).map fun i => List.replicate w (fl2Cached (j + i))) ∧
        FL2Inv w (j + n) st' := by
  intro n
  induction n with
  | zero => exact fun j st hinv => ⟨st, rfl, hinv⟩
  | succ n ih =>
    intro j st hinv
    obtain ⟨hep, hbc, hk⟩ := hinv
    have hep0 : (bump st "ForwardL2").epoch "ForwardL2" = j + 1 := by
      rw [bump_epoch_self, hep]
    have hbc0 : ∀ s, s < w → (bump st "ForwardL2").bcast "ForwardL2" s = bcount j := hbc
    have hk0 : ∀ s, s < w → (bump st "ForwardL2").hasKey "ForwardL2" s = decide (0 < j) := hk
    rcases hcc : fl2Cached j with hfalse | htrue
    · -- round j + 1 performs a real broadcast for every source
      have hnc : ¬(50 < bcount j ∧ (j + 1) % 2 = 0) := by
        have := hcc
        rw [fl2Cached] at this
        exact of_decide_eq_false this
      have h1 : ∀ s ∈ List.range w, condL1 (bump st "ForwardL2") "ForwardL2" s = false :=
        fun s _ => by
          rw [condL1]
          have hbeq : (("ForwardL2" : String) == "ForwardL1") = false := rfl
          rw [hbeq, Bool.false_and]
      have h2 : ∀ s ∈ List.range w, condL2 (bump st "ForwardL2") "ForwardL2" s = false :=
        fun s hs => by
          rw [condL2, hbc0 s (List.mem_range.1 hs), hep0]
          rcases Nat.lt_or_ge 50 (bcount j) with h5 | h5
          · have hm : (j + 1) % 2 ≠ 0 := fun hm => hnc ⟨h5, hm⟩
            simp [hm]
          · simp [Nat.not_lt.2 h5]
      obtain ⟨st1, hrun1, hep1, hbc1, hk1⟩ :=
        runSteps_all_real he (List.range w) (List.nodup_range w) (bump st "ForwardL2") h1 h2
      have hinv1 : FL2Inv w (j + 1) st1 := by
        refine ⟨?_, ?_, ?_⟩
        · rw [hep1, hep0]
        · intro s hs
          rw [hbc1 "ForwardL2" s, if_pos ⟨rfl, List.mem_range.2 hs⟩,
            hbc0 s hs, bcount, if_neg hnc]
        · intro s hs
          rw [hk1 "ForwardL2" s, if_pos ⟨⟨rfl, List.mem_range.2 hs⟩, rfl⟩]
          simp
      obtain ⟨st', hrun', hinv'⟩ := ih (j + 1) st1 hinv1
      refine ⟨st', ?_, ?_⟩
      · rw [runRounds, engineRound_eq, hrun1]
        simp only [Option.some_bind, hrun', Option.map_some', List.length_range]
        rw [List.range_succ_eq_map, List.map_cons, List.map_map]
        have hmap : ((List.range n).map fun i => List.replicate w (fl2Cached (j + 1 + i))) =
            (List.range n).map ((fun i => List.replicate w (fl2Cached (j + i))) ∘ Nat.succ) := by
          refine List.map_congr_left fun i _ => ?_
          have : j + 1 + i = j + Nat.succ i := by omega
          rw [Function.comp_apply, this]
        rw [← hmap]
        simp only [Nat.add_zero, hcc]
      · have : j + 1 + n = j + (n + 1) := by omega
        rwa [this] at hinv'
    · -- round j + 1 is served from cache for every source
      have hcj : 50 < bcount j ∧ (j + 1) % 2 = 0 := by
        have := hcc
        rw [fl2Cached] at this
        exact of_decide_eq_true this
      have hj0 : 0 < j := by
        have := bcount_le j
        omega
      have hc2 : ∀ s ∈ List.range w,
          (condL1 (bump st "ForwardL2") "ForwardL2" s ||
           condL2 (bump st "ForwardL2") "ForwardL2" s) = true := fun s hs => by
        have hcond : condL2 (bump st "ForwardL2") "ForwardL2" s = true := by
          rw [condL2, hbc0 s (List.mem_range.1 hs), hep0]
          simp [hcj.1, hcj.2]
        rw [hcond, Bool.or_true]
      have hk2 : ∀ s ∈ List.range w, (bump st "ForwardL2").hasKey "ForwardL2" s = true :=
        fun s hs => by
          rw [hk0 s (List.mem_range.1 hs)]
          simp [hj0]
      have hrun1 := runSteps_all_cached he (List.range w) (bump st "ForwardL2") hc2 hk2
      have hinv1 : FL2Inv w (j + 1) (bump st "ForwardL2") := by
        refine ⟨hep0, ?_, ?_⟩
        · intro s hs
          rw [hbc0 s hs, bcount, if_pos hcj]
        · intro s hs
          rw [hk0 s hs]
          simp [hj0]
      obtain ⟨st', hrun', hinv'⟩ := ih (j + 1) (bump st "ForwardL2") hinv1
      refine ⟨st', ?_, ?_⟩
      · rw [runRounds, engineRound_eq, hrun1]
        simp only [Option.some_bind, hrun', Option.map_some', List.length_range]
        rw [List.range_succ_eq_map, List.map_cons, List.map_map]
        have hmap : ((List.range n).map fun i => List.replicate w (fl2Cached (j + 1 + i))) =
            (List.range n).map ((fun i => List.replicate w (fl2Cached (j + i))) ∘ Nat.succ) := by
          refine List.map_congr_left fun i _ => ?_
          have : j + 1 + i = j + Nat.succ i := by omega
          rw [Function.comp_apply, this]
        rw [← hmap]
        simp only [Nat.add_zero, hcc]
      · have : j + 1 + n = j + (n + 1) := by omega
        rwa [this] at hinv'

/-- C8: with `cache_enabled["ForwardL2"] = true`, in the run of `n` engine
rounds for tag `ForwardL2` from the initial state, each source's broadcast
counter equals `bcount`, which increments exactly on real broadcasts; the
round logs follow `fl2Cached`: a round is served from cache exactly when
more than 50 real broadcasts have already occurred for that source and the
round's epoch counter is even — in particular never before 51 real
broadcasts. -/
theorem l2_warmup_parity (en : String → Option Bool) (he : en "ForwardL2" = some true)
    (w n : ℕ) :
    ∃ stn, runRounds en "ForwardL2" w n initCState = some (stn, fl2Logs w n) ∧
      (∀ src, src < w → stn.bcast "ForwardL2" src = bcount n) ∧
      (∀ k, k < n → (fl2Cached k = true ↔ 50 < bcount k ∧ (k + 1) % 2 = 0)) := by
  obtain ⟨stn, hrun, hinv⟩ :=
    fl2_run_aux he w n 0 initCState ⟨rfl, fun s _ => rfl, fun s _ => rfl⟩
  refine ⟨stn, ?_, ?_, fun k _ => by rw [fl2Cached]; exact decide_eq_true_iff⟩
  · rw [hrun, fl2Logs]
    refine congrArg some (congrArg (Prod.mk stn) (List.map_congr_left fun i _ => ?_))
    rw [Nat.zero_add]
  · intro src hs
    have := hinv.2.1 src hs
    rwa [Nat.zero_add] at this

theorem l2_warmup_parity_witness :
    ∃ stn, runRounds g_cache_enabled_v1 "ForwardL2" 1 2 initCState =
        some (stn, fl2Logs 1 2) ∧
      (∀ src, src < 1 → stn.bcast "ForwardL2" src = bcount 2) ∧
      (∀ k, k < 2 → (fl2Cached k = true ↔ 50 < bcount k ∧ (k + 1) % 2 = 0)) :=
  l2_warmup_parity g_cache_enabled_v1 rfl 1 2

end QCachedGCN
